import Mathlib

/-!
Verification development for the whispr anonymous posting board
(Go backend: Gin HTTP handlers over a GORM transactional store, plus a
WebSocket hub).  The definitions below shallowly embed the data model of
internal/models/models.go, the handlers and rate limiter of
internal/http/handlers.go, the admin middleware of
internal/http/middleware.go and the route table of the routes file
(SetupRoutes).  The store is modelled as explicit state (lists of rows);
GORM transactions are modelled by a combinator that restores the initial
state on error; fallible store sub-steps carry explicit failure-injection
flags so rollback behaviour can be stated for every failure mode.
-/

namespace Whispr

/-- Embeds models.Post (internal/models/models.go): id, content, score,
hidden soft-delete flag, creation time.  UpdatedAt and the Votes
association are not read by any handler and are omitted. -/
structure Post where
  id : Nat
  content : String
  score : Int
  hidden : Bool
  createdAt : Nat
deriving Repr, DecidableEq

/-- Embeds models.Vote: id, target post id, signed value. -/
structure Vote where
  id : Nat
  postId : Nat
  value : Int
deriving Repr, DecidableEq

/-- The transactional store: the posts table, the votes table, and the
auto-increment counters for the two primary keys. -/
structure Store where
  posts : List Post
  votes : List Vote
  nextPostId : Nat
  nextVoteId : Nat
deriving Repr, DecidableEq

/-- A freshly migrated database: both tables empty, ids start at 1. -/
def emptyStore : Store :=
  { posts := [], votes := [], nextPostId := 1, nextVoteId := 1 }

/-- tx.First(&post, postID): first row with the given primary key,
no hidden filter (used by DeletePost). -/
def findPost (s : Store) (pid : Nat) : Option Post :=
  s.posts.find? (fun p => p.id == pid)

/-- tx.Where("hidden = ?", false).First(&post, postID): first row with
the given primary key that is not hidden (used by VoteOnPost). -/
def findVisiblePost (s : Store) (pid : Nat) : Option Post :=
  s.posts.find? (fun p => p.id == pid && !p.hidden)

/-- e.DB.Create(&post) inside CreatePost: handlers.go builds the row with
Score set to 1 and Hidden left at its default false, and the store
assigns the next primary key. -/
def createPost (s : Store) (content : String) (now : Nat) : Store × Post :=
  let p : Post :=
    { id := s.nextPostId, content := content, score := 1,
      hidden := false, createdAt := now }
  ({ s with posts := s.posts ++ [p], nextPostId := s.nextPostId + 1 }, p)

/-- tx.Create(&vote): append a Vote row for the given post and value. -/
def insertVote (s : Store) (pid : Nat) (v : Int) : Store :=
  let vt : Vote := { id := s.nextVoteId, postId := pid, value := v }
  { s with votes := s.votes ++ [vt], nextVoteId := s.nextVoteId + 1 }

/-- tx.Model(&post).Update("score", newScore): set the score of the rows
whose primary key matches the fetched post. -/
def updateScore (s : Store) (pid : Nat) (ns : Int) : Store :=
  { s with posts :=
      s.posts.map (fun p => if p.id == pid then { p with score := ns } else p) }

/-- tx.Model(&post).Update("hidden", true) inside DeletePost. -/
def setHidden (s : Store) (pid : Nat) : Store :=
  { s with posts :=
      s.posts.map (fun p => if p.id == pid then { p with hidden := true } else p) }

/-- The errors the two transaction bodies in handlers.go can return. -/
inductive TxErr where
  | postNotFound
  | voteInsertFailed
  | scoreUpdateFailed
  | hideFailed
deriving Repr, DecidableEq

/-- e.DB.Transaction(body): gorm commits the body's final state on nil
error and rolls the whole transaction back (restoring the initial
state) when the body returns an error. -/
def transaction {E A : Type} (body : Store → Except E (Store × A)) (s : Store) :
    Store × Except E A :=
  match body s with
  | Except.ok (s2, a) => (s2, Except.ok a)
  | Except.error e => (s, Except.error e)

/-- The transaction body of VoteOnPost (handlers.go lines 170-193):
locked lookup of the non-hidden post, Vote insert, score update.
`fi` and `fu` inject store failures of the insert and the update,
modelling the error branches of tx.Create and tx.Update. -/
def voteTxBody (fi fu : Bool) (pid : Nat) (v : Int) (s : Store) :
    Except TxErr (Store × Int) :=
  match findVisiblePost s pid with
  | none => Except.error TxErr.postNotFound
  | some p =>
      if fi then Except.error TxErr.voteInsertFailed
      else
        let s1 := insertVote s pid v
        let ns := p.score + v
        if fu then Except.error TxErr.scoreUpdateFailed
        else Except.ok (updateScore s1 pid ns, ns)

/-- The HTTP outcome a handler writes to the response. -/
inductive HResp where
  | okVote (pid : Nat) (newScore : Int)
  | okHidden (pid : Nat)
  | badRequest
  | notFound
  | serverError
  | aborted (status : Nat)
deriving Repr, DecidableEq

/-- True exactly on the success outcomes. -/
def HResp.isOk : HResp → Bool
  | HResp.okVote _ _ => true
  | HResp.okHidden _ => true
  | _ => false

/-- Observable events of one handler call, in program order: the commit
or rollback of its store transaction and any message pushed to the
Hub's broadcast channel. -/
inductive Event where
  | commit
  | rollback
  | wsBroadcast (ty : String) (pid : Nat) (val : Int)
deriving Repr, DecidableEq

/-- What one handler call produces: the resulting store, the HTTP
response, and its event trace. -/
structure HandlerOut where
  store : Store
  resp : HResp
  events : List Event
deriving Repr, DecidableEq

/-- gin binding "required,oneof=-1 1" on VoteInput.Value: 0 fails
`required` (integer zero value) and every other value outside
the set fails `oneof`, so the bind succeeds exactly on 1 and -1. -/
def bindVoteInput (v : Int) : Bool :=
  v == 1 || v == -1

/-- VoteOnPost (handlers.go lines 153-210): bind the JSON body, run the
vote transaction, map "post not found" to 404 and other transaction
errors to 500, and on success broadcast the vote_update payload built
from the fetched post id and the committed new score. -/
def voteOnPost (fi fu : Bool) (s : Store) (pid : Nat) (v : Int) : HandlerOut :=
  if !bindVoteInput v then
    { store := s, resp := HResp.badRequest, events := [] }
  else
    match transaction (voteTxBody fi fu pid v) s with
    | (s2, Except.ok ns) =>
        { store := s2, resp := HResp.okVote pid ns,
          events := [Event.commit, Event.wsBroadcast "vote_update" pid ns] }
    | (s2, Except.error e) =>
        { store := s2,
          resp := if e = TxErr.postNotFound then HResp.notFound
                  else HResp.serverError,
          events := [Event.rollback] }

/-- The transaction body of DeletePost (handlers.go lines 222-235):
primary-key lookup with no hidden filter, then Update("hidden", true).
`fh` injects a store failure of the update. -/
def deleteTxBody (fh : Bool) (pid : Nat) (s : Store) :
    Except TxErr (Store × Nat) :=
  match findPost s pid with
  | none => Except.error TxErr.postNotFound
  | some p =>
      if fh then Except.error TxErr.hideFailed
      else Except.ok (setHidden s pid, p.id)

/-- DeletePost (handlers.go lines 213-252): run the hide transaction,
map errors as VoteOnPost does, and on success broadcast delete_post. -/
def deletePost (fh : Bool) (s : Store) (pid : Nat) : HandlerOut :=
  match transaction (deleteTxBody fh pid) s with
  | (s2, Except.ok foundId) =>
      { store := s2, resp := HResp.okHidden foundId,
        events := [Event.commit, Event.wsBroadcast "delete_post" foundId 0] }
  | (s2, Except.error e) =>
      { store := s2,
        resp := if e = TxErr.postNotFound then HResp.notFound
                else HResp.serverError,
        events := [Event.rollback] }

/-- Stable insertion of a row into a list sorted by `le`; models the
store's ORDER BY on the read queries. -/
def insertSorted (le : Post → Post → Bool) (p : Post) : List Post → List Post
  | [] => [p]
  | q :: rest =>
      if le p q then p :: q :: rest else q :: insertSorted le p rest

/-- Stable sort by `le`, the order the store returns rows in. -/
def sortPosts (le : Post → Post → Bool) : List Post → List Post
  | [] => []
  | p :: rest => insertSorted le p (sortPosts le rest)

/-- GetPosts (handlers.go lines 105-113): all rows with hidden = false,
ordered by created_at descending. -/
def getPosts (s : Store) : List Post :=
  sortPosts (fun a b => b.createdAt ≤ a.createdAt)
    (s.posts.filter (fun p => !p.hidden))

/-- GetTrendingPosts (handlers.go lines 116-124): non-hidden rows ordered
by score descending then created_at descending, limited to 20. -/
def getTrendingPosts (s : Store) : List Post :=
  (sortPosts
      (fun a b =>
        if a.score == b.score then b.createdAt ≤ a.createdAt
        else b.score ≤ a.score)
      (s.posts.filter (fun p => !p.hidden))).take 20

/-! ### Rate limiter

handlers.go configures rateLimitRPS = 1/3 token per second and
rateLimitBurst = 1.  The token bucket itself lives in the external
golang.org/x/time/rate library; its behaviour is modelled from the
spec's token-bucket description.  To stay in integers, tokens are
counted in thirds of a token: capacity 3 thirds = 1 token (the burst),
refilled 1 third per elapsed second, and one Allow call consumes 3
thirds.  Time is in whole seconds. -/

/-- One client's token bucket: current tokens (in thirds of a token)
and the time of the last refill. -/
structure Bucket where
  tokens : Nat
  last : Nat
deriving Repr, DecidableEq

/-- Burst capacity in thirds of a token: rateLimitBurst = 1 token. -/
def bucketCap : Nat := 3

/-- Modelled from the spec: advancing a bucket to time `t` adds the
tokens accrued since the last update, capped at the burst capacity
(refill rate 1/3 token per second, i.e. one third per second). -/
def refill (bk : Bucket) (t : Nat) : Bucket :=
  { tokens := min bucketCap (bk.tokens + (t - bk.last)), last := t }

/-- Modelled from the spec: limiter.Allow() at time `t` refills, then
consumes one whole token (3 thirds) if available; never blocks —
it just reports whether a token was available. -/
def allow (bk : Bucket) (t : Nat) : Bool × Bucket :=
  let r := refill bk t
  if bucketCap ≤ r.tokens then (true, { r with tokens := r.tokens - bucketCap })
  else (false, r)

/-- rate.NewLimiter(rps, burst): a fresh bucket starts at full
capacity. -/
def newBucket (t : Nat) : Bucket :=
  { tokens := bucketCap, last := t }

/-- The IPRateLimiter visitors map, as an association list. -/
def LimiterMap := List (String × Bucket)

/-- GetLimiter (handlers.go lines 72-82): return the bucket of the given
ip, lazily creating a full one on first access. -/
def getLimiter (m : List (String × Bucket)) (ip : String) (t : Nat) :
    Bucket × List (String × Bucket) :=
  match m.find? (fun kv => kv.fst == ip) with
  | some kv => (kv.snd, m)
  | none => (newBucket t, m ++ [(ip, newBucket t)])

/-- A sequence of Allow calls against one bucket at the given times;
returns how many were admitted and the final bucket. -/
def runAllows (bk : Bucket) : List Nat → Nat × Bucket
  | [] => (0, bk)
  | t :: rest =>
      let a := allow bk t
      let r := runAllows a.snd rest
      ((if a.fst then 1 else 0) + r.fst, r.snd)

/-- RateLimitMiddleware (handlers.go lines 85-94): if the client's
limiter denies, abort with 429 and never invoke the handler;
otherwise run the handler. -/
def runRateLimit (allowed : Bool) (handler : Store → HandlerOut) (s : Store) :
    HandlerOut :=
  if allowed then handler s
  else { store := s, resp := HResp.aborted 429, events := [] }

/-! ### Route table (SetupRoutes) -/

/-- The per-route middlewares SetupRoutes attaches inside the /api
group (gin.Logger, Recovery, security headers and CORS are global
and touch no application state). -/
inductive Mw where
  | rateLimit
  | adminAuth
deriving Repr, DecidableEq

/-- One gin route: method, path, and its route-specific middlewares. -/
structure Route where
  method : String
  path : String
  middlewares : List Mw
deriving Repr, DecidableEq

/-- The /api route group exactly as SetupRoutes registers it. -/
def apiRoutes : List Route :=
  [ { method := "GET", path := "/api/posts", middlewares := [] },
    { method := "GET", path := "/api/trending", middlewares := [] },
    { method := "POST", path := "/api/posts", middlewares := [Mw.rateLimit] },
    { method := "POST", path := "/api/posts/:id/vote", middlewares := [] },
    { method := "DELETE", path := "/api/posts/:id", middlewares := [Mw.adminAuth] } ]

/-- A route that mutates state: everything that is not a GET. -/
def isWriteRoute (r : Route) : Bool :=
  r.method != "GET"

/-! ### Admin middleware (middleware.go) -/

/-- What a middleware does with a request: abort with a status, or pass
it on to the handler. -/
inductive AuthDecision where
  | abort (status : Nat)
  | next
deriving Repr, DecidableEq

/-- AdminAuthMiddleware (middleware.go lines 11-40): reads X_ADMIN_TOKEN
once at construction; an empty value means the variable is unset and
construction fails closed (the Go code calls panic, modelled as
`none`).  Otherwise the returned middleware aborts 401 on a missing
X-Admin-Token header and 403 on a mismatched one. -/
def adminAuthMiddleware (envToken : String) : Option (String → AuthDecision) :=
  if envToken = "" then none
  else
    some (fun supplied =>
      if supplied = "" then AuthDecision.abort 401
      else if supplied ≠ envToken then AuthDecision.abort 403
      else AuthDecision.next)

/-- The DELETE /api/posts/:id route end to end: `none` when the process
cannot even start (construction panicked); otherwise the middleware
decision gates DeletePost. -/
def runAdminDelete (envToken header : String) (fh : Bool) (s : Store)
    (pid : Nat) : Option HandlerOut :=
  match adminAuthMiddleware envToken with
  | none => none
  | some mw =>
      match mw header with
      | AuthDecision.next => some (deletePost fh s pid)
      | AuthDecision.abort st =>
          some { store := s, resp := HResp.aborted st, events := [] }

/-! ### Hub

The internal/ws package is referenced by the handlers and the entry
point but its source is not part of this tree; the Hub and Connection
are modelled from the spec. -/

/-- Modelled from the spec: a live connection with its private bounded
outbound queue, here the list of payloads delivered to it in order. -/
structure Conn where
  id : Nat
  inbox : List String
deriving Repr, DecidableEq

/-- Modelled from the spec: the bounded capacity of a connection's
outbound queue (the slow-consumer threshold is an implementation
constant; any positive value exhibits the eviction behaviour). -/
def sendCap : Nat := 256

/-- Modelled from the spec: the Hub's membership set, owned exclusively
by its single processing loop. -/
structure Hub where
  conns : List Conn
deriving Repr, DecidableEq

/-- The ids currently registered with the hub. -/
def Hub.ids (h : Hub) : List Nat :=
  h.conns.map (fun c => c.id)

/-- Modelled from the spec: the three commands the Hub's single
sequential loop processes. -/
inductive HubEvent where
  | register (cid : Nat)
  | unregister (cid : Nat)
  | broadcast (m : String)
deriving Repr, DecidableEq

/-- Modelled from the spec: one step of the Hub loop.  register adds a
fresh connection with an empty queue (no retroactive delivery);
unregister removes it (idempotent); broadcast appends the payload to
every registered connection's queue, evicting a connection whose
queue is already full instead of blocking. -/
def hubStep (h : Hub) (e : HubEvent) : Hub :=
  match e with
  | HubEvent.register cid =>
      if h.conns.any (fun c => c.id == cid) then h
      else { conns := h.conns ++ [{ id := cid, inbox := [] }] }
  | HubEvent.unregister cid =>
      { conns := h.conns.filter (fun c => c.id != cid) }
  | HubEvent.broadcast m =>
      { conns := h.conns.filterMap (fun c =>
          if c.inbox.length < sendCap then some { c with inbox := c.inbox ++ [m] }
          else none) }

/-- Running the Hub loop over a command sequence. -/
def hubRun (h : Hub) (evs : List HubEvent) : Hub :=
  evs.foldl hubStep h

/-! ### Operation sequences against the store -/

/-- One write operation reaching the store, with failure injection for
the fallible sub-steps. -/
inductive Op where
  | create (content : String) (now : Nat)
  | vote (pid : Nat) (v : Int) (fi fu : Bool)
  | hide (pid : Nat) (fh : Bool)
deriving Repr, DecidableEq

/-- The store state after one operation. -/
def applyOp (s : Store) (op : Op) : Store :=
  match op with
  | Op.create c now => (createPost s c now).fst
  | Op.vote pid v fi fu => (voteOnPost fi fu s pid v).store
  | Op.hide pid fh => (deletePost fh s pid).store

/-- The store state after a sequence of operations. -/
def runOps (s : Store) (ops : List Op) : Store :=
  ops.foldl applyOp s

/-- The signed sum of all Vote values recorded for the given post. -/
def voteSum (s : Store) (pid : Nat) : Int :=
  (s.votes.filter (fun v => v.postId == pid)).foldl (fun acc v => acc + v.value) 0

/-- Id discipline maintained by the store: every row id is below the
corresponding auto-increment counter, and votes only reference
already-created posts. -/
def wfStore (s : Store) : Prop :=
  (∀ p ∈ s.posts, p.id < s.nextPostId) ∧
  (∀ v ∈ s.votes, v.postId < s.nextPostId)

/-- The score invariant: every post's score equals its creation score 1
plus the signed sum of its recorded votes. -/
def scoreInv (s : Store) : Prop :=
  ∀ p ∈ s.posts, p.score = 1 + voteSum s p.id

/-- Whether an event is a push to the Hub's broadcast channel. -/
def isBroadcastEv : Event → Bool
  | Event.wsBroadcast _ _ _ => true
  | _ => false

/-- True when no broadcast event occurs before the first commit of the
trace: every prefix of the trace that ends in a broadcast already
contains a commit. -/
def broadcastOnlyAfterCommit : List Event → Bool
  | [] => true
  | Event.commit :: _ => true
  | Event.rollback :: rest => broadcastOnlyAfterCommit rest
  | Event.wsBroadcast _ _ _ :: _ => false

/-- A store holding one freshly created post (id 1, score 1). -/
def demoStore : Store :=
  (createPost emptyStore "first confession" 5).fst

/-- demoStore after the admin hid post 1. -/
def demoHiddenStore : Store :=
  (deletePost false demoStore 1).store

/-- The spec's scenario: create one post, then vote +1, +1, -1 on it. -/
def demoOps : List Op :=
  [Op.create "hello" 3, Op.vote 1 1 false false, Op.vote 1 1 false false,
   Op.vote 1 (-1) false false]

/-!  ## Theorems  -/

/-- C3: a vote request whose value is neither 1 nor -1 fails the gin
binding, is answered 400 before the transaction runs, and has no side
effect: the store is untouched and the trace is empty for every
failure injection. -/
theorem C3_invalid_vote_value_rejected (fi fu : Bool) (s : Store) (pid : Nat)
    (v : Int) (h1 : v ≠ 1) (h2 : v ≠ -1) :
    voteOnPost fi fu s pid v =
      { store := s, resp := HResp.badRequest, events := [] } := by
  have hb : bindVoteInput v = false := by
    simp [bindVoteInput, h1, h2]
  simp [voteOnPost, hb]

theorem C3_witness :
    (0 : Int) ≠ 1 ∧ (0 : Int) ≠ -1 ∧
    voteOnPost false false demoStore 1 0 =
      { store := demoStore, resp := HResp.badRequest, events := [] } :=
  ⟨by decide, by decide,
   C3_invalid_vote_value_rejected false false demoStore 1 0 (by decide) (by decide)⟩

/-- C2: whenever the vote handler does not answer with a success (post
lookup failed, the Vote insert failed, or the score update failed),
the transaction rolled back and the store — posts, scores and Vote
rows alike — is exactly the store before the call. -/
theorem C2_failed_vote_rolls_back (fi fu : Bool) (s : Store) (pid : Nat)
    (v : Int) (h : (voteOnPost fi fu s pid v).resp.isOk = false) :
    (voteOnPost fi fu s pid v).store = s := by
  cases hb : bindVoteInput v with
  | false => simp [voteOnPost, hb]
  | true =>
      cases htx : voteTxBody fi fu pid v s with
      | ok pr =>
          obtain ⟨s2, ns⟩ := pr
          simp [voteOnPost, hb, transaction, htx, HResp.isOk] at h
      | error e => simp [voteOnPost, hb, transaction, htx]

theorem C2_witness :
    (voteOnPost false true demoStore 1 1).resp.isOk = false ∧
    (voteOnPost false true demoStore 1 1).store = demoStore :=
  ⟨by decide, C2_failed_vote_rolls_back false true demoStore 1 1 (by decide)⟩

/-- C7: in the vote handler's trace no broadcast ever occurs before the
transaction commit, and when the vote fails nothing at all is
broadcast. -/
theorem C7_broadcast_only_after_commit (fi fu : Bool) (s : Store) (pid : Nat)
    (v : Int) :
    broadcastOnlyAfterCommit (voteOnPost fi fu s pid v).events = true ∧
    ((voteOnPost fi fu s pid v).resp.isOk = false →
      ∀ e ∈ (voteOnPost fi fu s pid v).events, isBroadcastEv e = false) := by
  cases hb : bindVoteInput v with
  | false => simp [voteOnPost, hb, broadcastOnlyAfterCommit]
  | true =>
      cases htx : voteTxBody fi fu pid v s with
      | ok pr =>
          obtain ⟨s2, ns⟩ := pr
          constructor
          · simp [voteOnPost, hb, transaction, htx, broadcastOnlyAfterCommit]
          · intro hk
            simp [voteOnPost, hb, transaction, htx, HResp.isOk] at hk
      | error e =>
          constructor
          · simp [voteOnPost, hb, transaction, htx, broadcastOnlyAfterCommit]
          · intro _
            simp [voteOnPost, hb, transaction, htx, isBroadcastEv]

theorem C7_witness :
    broadcastOnlyAfterCommit (voteOnPost false false demoStore 7 1).events = true ∧
    (∀ e ∈ (voteOnPost false false demoStore 7 1).events,
      isBroadcastEv e = false) :=
  ⟨(C7_broadcast_only_after_commit false false demoStore 7 1).1,
   (C7_broadcast_only_after_commit false false demoStore 7 1).2 (by decide)⟩

/-- C9: with X_ADMIN_TOKEN unset the middleware cannot be constructed
(fail closed); with it set, a missing X-Admin-Token header is
answered 401 and a mismatched one 403, and in both cases DeletePost
never runs: the store is unchanged and no event is emitted. -/
theorem C9_admin_gate (envToken header : String) (fh : Bool) (s : Store)
    (pid : Nat) :
    adminAuthMiddleware "" = none ∧
    (envToken ≠ "" → header = "" →
      runAdminDelete envToken header fh s pid =
        some { store := s, resp := HResp.aborted 401, events := [] }) ∧
    (envToken ≠ "" → header ≠ "" → header ≠ envToken →
      runAdminDelete envToken header fh s pid =
        some { store := s, resp := HResp.aborted 403, events := [] }) := by
  refine ⟨rfl, ?_, ?_⟩
  · intro he hh
    simp [runAdminDelete, adminAuthMiddleware, he, hh]
  · intro he hh hm
    simp [runAdminDelete, adminAuthMiddleware, he, hh, hm]

theorem C9_witness :
    adminAuthMiddleware "" = none ∧
    runAdminDelete "s3cret" "" false demoStore 1 =
      some { store := demoStore, resp := HResp.aborted 401, events := [] } ∧
    runAdminDelete "s3cret" "wrong" false demoStore 1 =
      some { store := demoStore, resp := HResp.aborted 403, events := [] } :=
  ⟨(C9_admin_gate "s3cret" "" false demoStore 1).1,
   (C9_admin_gate "s3cret" "" false demoStore 1).2.1 (by decide) rfl,
   (C9_admin_gate "s3cret" "wrong" false demoStore 1).2.2 (by decide) (by decide)
     (by decide)⟩

/-- C6 counterexample: it is not the case that every write route of the
/api group carries the rate-limit middleware — SetupRoutes attaches
it to POST /api/posts only, so the vote and delete routes reach
their handlers without any rate-limit admission check. -/
theorem C6_counterexample :
    ¬ ∀ r ∈ apiRoutes, isWriteRoute r = true → Mw.rateLimit ∈ r.middlewares := by
  decide

/-- C6 amended: among the /api routes exactly the create-post route
passes through the rate limiter (the vote and delete routes do not),
and on that route a request denied by the limiter is answered 429
with the handler never running and the store untouched. -/
theorem C6_amended_rate_limit (hnd : Store → HandlerOut) (s : Store) :
    (∀ r ∈ apiRoutes, Mw.rateLimit ∈ r.middlewares ↔
      (r.method = "POST" ∧ r.path = "/api/posts")) ∧
    runRateLimit false hnd s =
      { store := s, resp := HResp.aborted 429, events := [] } :=
  ⟨by decide, rfl⟩

theorem C6_witness :
    (∀ r ∈ apiRoutes, Mw.rateLimit ∈ r.middlewares ↔
      (r.method = "POST" ∧ r.path = "/api/posts")) ∧
    runRateLimit false (fun st => deletePost false st 1) demoStore =
      { store := demoStore, resp := HResp.aborted 429, events := [] } :=
  C6_amended_rate_limit (fun st => deletePost false st 1) demoStore

/-- Inserting into the sort keeps exactly the old elements plus the new
one. -/
theorem mem_insertSorted (le : Post → Post → Bool) (p q : Post) :
    ∀ l : List Post, q ∈ insertSorted le p l ↔ q = p ∨ q ∈ l := by
  intro l
  induction l with
  | nil => simp [insertSorted]
  | cons a rest ih =>
      by_cases h : le p a
      · simp [insertSorted, h]
      · simp [insertSorted, h, ih]
        tauto

/-- Sorting is a permutation at the level of membership. -/
theorem mem_sortPosts (le : Post → Post → Bool) (q : Post) :
    ∀ l : List Post, q ∈ sortPosts le l ↔ q ∈ l := by
  intro l
  induction l with
  | nil => simp [sortPosts]
  | cons a rest ih => simp [sortPosts, mem_insertSorted, ih]

/-- C4: hidden posts appear in no read query — GetPosts and
GetTrendingPosts return only rows with hidden = false — and a post id
whose rows are all hidden (or absent) is not a vote target: a validly
bound vote against it is answered 404 with the store untouched. -/
theorem C4_hidden_posts_excluded (s : Store) (pid : Nat) (v : Int)
    (fi fu : Bool) (hv : bindVoteInput v = true)
    (hhid : ∀ p ∈ s.posts, p.id = pid → p.hidden = true) :
    (∀ p ∈ getPosts s, p.hidden = false) ∧
    (∀ p ∈ getTrendingPosts s, p.hidden = false) ∧
    (voteOnPost fi fu s pid v).resp = HResp.notFound ∧
    (voteOnPost fi fu s pid v).store = s := by
  have hfind : findVisiblePost s pid = none := by
    rw [findVisiblePost, List.find?_eq_none]
    intro x hx
    by_cases hxid : x.id = pid
    · have hh := hhid x hx hxid
      simp [hh]
    · simp [hxid]
  refine ⟨?_, ?_, ?_, ?_⟩
  · intro p hp
    rw [getPosts, mem_sortPosts] at hp
    have hfp := (List.mem_filter.mp hp).2
    simpa using hfp
  · intro p hp
    have hp2 := List.take_subset 20 _ hp
    rw [mem_sortPosts] at hp2
    have hfp := (List.mem_filter.mp hp2).2
    simpa using hfp
  · simp [voteOnPost, hv, transaction, voteTxBody, hfind]
  · simp [voteOnPost, hv, transaction, voteTxBody, hfind]

theorem C4_witness :
    (∀ p ∈ getPosts demoHiddenStore, p.hidden = false) ∧
    (∀ p ∈ getTrendingPosts demoHiddenStore, p.hidden = false) ∧
    (voteOnPost false false demoHiddenStore 1 1).resp = HResp.notFound ∧
    (voteOnPost false false demoHiddenStore 1 1).store = demoHiddenStore :=
  C4_hidden_posts_excluded demoHiddenStore 1 1 false false (by decide) (by decide)

/-- A primary-key lookup commutes with the hidden update, which keeps
ids intact. -/
theorem findPost_setHidden (s : Store) (pid : Nat) :
    findPost (setHidden s pid) pid =
      (findPost s pid).map
        (fun q => if q.id == pid then { q with hidden := true } else q) := by
  rw [findPost, setHidden]
  show List.find? _ (List.map _ s.posts) = _
  rw [List.find?_map]
  have hpred :
      ((fun p : Post => p.id == pid) ∘
        (fun q : Post => if q.id == pid then { q with hidden := true } else q)) =
      (fun p : Post => p.id == pid) := by
    funext q
    by_cases h : q.id = pid <;> simp [Function.comp, h]
  rw [hpred, findPost]

/-- C10: hiding an existing post succeeds and changes nothing except the
hidden flag of the rows with that id: the posts table is the
identity map outside the target, the votes table and both id
counters are untouched, and hiding again is idempotent. -/
theorem C10_hide_frame (s : Store) (pid : Nat) (p : Post)
    (hp : p ∈ s.posts) (hid : p.id = pid) :
    (deletePost false s pid).resp = HResp.okHidden pid ∧
    (deletePost false s pid).store.posts =
      s.posts.map (fun q => if q.id == pid then { q with hidden := true } else q) ∧
    (deletePost false s pid).store.votes = s.votes ∧
    (deletePost false s pid).store.nextPostId = s.nextPostId ∧
    (deletePost false s pid).store.nextVoteId = s.nextVoteId ∧
    deletePost false (deletePost false s pid).store pid = deletePost false s pid := by
  have hsome : (findPost s pid).isSome := by
    rw [findPost]
    exact List.find?_isSome.mpr ⟨p, hp, by simp [hid]⟩
  obtain ⟨q, hq⟩ := Option.isSome_iff_exists.mp hsome
  have hqid : q.id = pid := by
    have hfq : List.find? (fun p => p.id == pid) s.posts = some q := hq
    simpa using List.find?_some hfq
  have hout : deletePost false s pid =
      { store := setHidden s pid, resp := HResp.okHidden pid,
        events := [Event.commit, Event.wsBroadcast "delete_post" pid 0] } := by
    simp [deletePost, transaction, deleteTxBody, hq, hqid]
  have hq2 : findPost (setHidden s pid) pid = some { q with hidden := true } := by
    rw [findPost_setHidden, hq]
    simp [hqid]
  have hidem : deletePost false (setHidden s pid) pid =
      { store := setHidden (setHidden s pid) pid, resp := HResp.okHidden pid,
        events := [Event.commit, Event.wsBroadcast "delete_post" pid 0] } := by
    simp [deletePost, transaction, deleteTxBody, hq2, hqid]
  have hset2 : setHidden (setHidden s pid) pid = setHidden s pid := by
    simp only [setHidden, List.map_map]
    congr 1
    apply List.map_congr_left
    intro a _
    by_cases h : a.id = pid <;> simp [Function.comp, h]
  refine ⟨by rw [hout], by rw [hout]; simp [setHidden],
          by rw [hout]; simp [setHidden], by rw [hout]; simp [setHidden],
          by rw [hout]; simp [setHidden], ?_⟩
  rw [hout]
  show deletePost false (setHidden s pid) pid = _
  rw [hidem, hset2]

theorem C10_witness :
    (deletePost false demoStore 1).resp = HResp.okHidden 1 ∧
    (deletePost false demoStore 1).store.posts =
      demoStore.posts.map
        (fun q => if q.id == 1 then { q with hidden := true } else q) ∧
    (deletePost false demoStore 1).store.votes = demoStore.votes ∧
    (deletePost false demoStore 1).store.nextPostId = demoStore.nextPostId ∧
    (deletePost false demoStore 1).store.nextVoteId = demoStore.nextVoteId ∧
    deletePost false (deletePost false demoStore 1).store 1 =
      deletePost false demoStore 1 :=
  C10_hide_frame demoStore 1
    { id := 1, content := "first confession", score := 1, hidden := false,
      createdAt := 5 }
    (by decide) rfl

/-- Token conservation for one bucket: across any nondecreasing sequence
of call times bounded by `M`, the tokens spent on admitted calls
never exceed the initial tokens plus everything the refill can have
accrued up to `M`. -/
theorem runAllows_mul_bound (ts : List Nat) :
    ∀ (bk : Bucket) (M : Nat), bk.tokens ≤ bucketCap →
    List.Chain (fun a b => a ≤ b) bk.last ts →
    (∀ t ∈ ts, t ≤ M) →
    (runAllows bk ts).fst * bucketCap ≤ bk.tokens + (M - bk.last) := by
  induction ts with
  | nil =>
      intro bk M _ _ _
      simp [runAllows]
  | cons t rest ih =>
      intro bk M htok hch hM
      cases hch with
      | cons hab hch2 =>
        have htM : t ≤ M := hM t (List.mem_cons_self _ _)
        have hMrest : ∀ x ∈ rest, x ≤ M := fun x hx => hM x (List.mem_cons_of_mem _ hx)
        by_cases hc : bucketCap ≤ min bucketCap (bk.tokens + (t - bk.last))
        · have hstep : (runAllows bk (t :: rest)).fst =
              1 + (runAllows
                { tokens := min bucketCap (bk.tokens + (t - bk.last)) - bucketCap,
                  last := t } rest).fst := by
            simp [runAllows, allow, refill, hc]
          have hbound := ih
            { tokens := min bucketCap (bk.tokens + (t - bk.last)) - bucketCap,
              last := t } M (by simp [bucketCap]) hch2 hMrest
          rw [hstep]
          simp only [bucketCap] at hbound hc htok ⊢
          omega
        · have hstep : (runAllows bk (t :: rest)).fst =
              (runAllows
                { tokens := min bucketCap (bk.tokens + (t - bk.last)),
                  last := t } rest).fst := by
            simp [runAllows, allow, refill, hc]
          have hbound := ih
            { tokens := min bucketCap (bk.tokens + (t - bk.last)),
              last := t } M (by simp [bucketCap]) hch2 hMrest
          rw [hstep]
          simp only [bucketCap] at hbound hc htok ⊢
          omega

/-- C5: a fresh identity gets a full bucket (so at most burst = 1
request instantly), and over any nondecreasing call times confined to
`bucketCap * k` seconds after creation, at most `1 + k` calls are
admitted — one extra per 3-second refill interval, indefinitely.
Allow itself never blocks or errors: it is total and returns true
exactly when a full token is available after the refill. -/
theorem C5_rate_limiter (ts : List Nat) (t0 M : Nat) (ip : String)
    (hch : List.Chain (fun a b => a ≤ b) t0 ts) (hM : ∀ t ∈ ts, t ≤ M) :
    (runAllows (newBucket t0) ts).fst ≤ 1 + (M - t0) / bucketCap ∧
    (getLimiter [] ip t0).fst = { tokens := bucketCap, last := t0 } ∧
    (∀ bk t, ((allow bk t).fst = true ↔ bucketCap ≤ (refill bk t).tokens)) := by
  refine ⟨?_, rfl, ?_⟩
  · have h1 := runAllows_mul_bound ts (newBucket t0) M (le_refl _) hch hM
    have h2 : (runAllows (newBucket t0) ts).fst ≤
        (bucketCap + (M - t0)) / bucketCap :=
      (Nat.le_div_iff_mul_le (by simp [bucketCap])).mpr h1
    simp only [bucketCap, newBucket] at h1 h2 ⊢
    omega
  · intro bk t
    by_cases hc : bucketCap ≤ (refill bk t).tokens
    · simp [allow, hc]
    · simp [allow, hc]

theorem C5_witness :
    (runAllows (newBucket 0) [0, 0, 1, 3, 5, 9]).fst ≤ 1 + (9 - 0) / bucketCap ∧
    (getLimiter [] "203.0.113.7" 0).fst = { tokens := bucketCap, last := 0 } ∧
    ((allow (newBucket 0) 0).fst = true ↔
      bucketCap ≤ (refill (newBucket 0) 0).tokens) :=
  ⟨(C5_rate_limiter [0, 0, 1, 3, 5, 9] 0 9 "203.0.113.7" (by simp [List.chain_cons]) (by decide)).1,
   (C5_rate_limiter [0, 0, 1, 3, 5, 9] 0 9 "203.0.113.7" (by simp [List.chain_cons]) (by decide)).2.1,
   (C5_rate_limiter [0, 0, 1, 3, 5, 9] 0 9 "203.0.113.7" (by simp [List.chain_cons])
      (by decide)).2.2 (newBucket 0) 0⟩

/-- One Hub step other than a broadcast of `m` cannot give a connection
with the watched id the message `m`. -/
theorem hubStep_keeps_out (m : String) (cid : Nat) (h : Hub) (e : HubEvent)
    (hP : ∀ c ∈ h.conns, c.id = cid → m ∉ c.inbox)
    (he : e ≠ HubEvent.broadcast m) :
    ∀ c ∈ (hubStep h e).conns, c.id = cid → m ∉ c.inbox := by
  intro c hc hcid
  cases e with
  | register cid2 =>
      by_cases hex : h.conns.any (fun c => c.id == cid2)
      · rw [hubStep] at hc
        simp only [hex, if_true] at hc
        exact hP c hc hcid
      · rw [hubStep] at hc
        simp only [hex, if_false] at hc
        rcases List.mem_append.mp hc with hc2 | hc2
        · exact hP c hc2 hcid
        · have hcc : c = { id := cid2, inbox := [] } := by simpa using hc2
          rw [hcc]
          simp
  | unregister cid2 =>
      simp only [hubStep] at hc
      exact hP c (List.mem_filter.mp hc).1 hcid
  | broadcast m2 =>
      have hm2 : m2 ≠ m := fun hmm => he (by rw [hmm])
      simp only [hubStep] at hc
      obtain ⟨a, ha, hfa⟩ := List.mem_filterMap.mp hc
      by_cases hlen : a.inbox.length < sendCap
      · rw [if_pos hlen] at hfa
        have hca : c = { a with inbox := a.inbox ++ [m2] } := by
          exact (Option.some.injEq _ _).mp hfa |>.symm
        rw [hca] at hcid ⊢
        intro hmem
        rcases List.mem_append.mp hmem with hmem2 | hmem2
        · exact hP a ha hcid hmem2
        · have hmm : m = m2 := by simpa using hmem2
          exact hm2 hmm.symm
      · rw [if_neg hlen] at hfa
        exact absurd hfa (by simp)

/-- Running the Hub loop over commands that never broadcast `m` keeps
`m` out of the inbox of every connection with the watched id. -/
theorem hubRun_keeps_out (m : String) (cid : Nat) :
    ∀ (evs : List HubEvent) (h : Hub),
    (∀ c ∈ h.conns, c.id = cid → m ∉ c.inbox) →
    (∀ e ∈ evs, e ≠ HubEvent.broadcast m) →
    ∀ c ∈ (hubRun h evs).conns, c.id = cid → m ∉ c.inbox := by
  intro evs
  induction evs with
  | nil =>
      intro h hP _
      simpa [hubRun] using hP
  | cons e rest ih =>
      intro h hP hne
      have h1 := hubStep_keeps_out m cid h e hP (hne e (List.mem_cons_self _ _))
      have h2 := ih (hubStep h e) h1 (fun x hx => hne x (List.mem_cons_of_mem _ hx))
      simpa [hubRun] using h2

/-- C8: a broadcast delivers `m` to exactly the connections registered
at the moment of the call — every registered connection with queue
room receives it, every connection of the resulting hub is a
registered connection that received it (a saturated one is evicted
instead), and an identity not registered at that moment never holds
`m` later, however the loop continues, as long as `m` is not
broadcast again. -/
theorem C8_broadcast_current_membership (h : Hub) (m : String) (c : Conn)
    (cid : Nat) (evs : List HubEvent)
    (hc : c ∈ h.conns) (hroom : c.inbox.length < sendCap)
    (hfresh : cid ∉ h.ids)
    (hnom : ∀ e ∈ evs, e ≠ HubEvent.broadcast m) :
    ({ c with inbox := c.inbox ++ [m] } ∈
        (hubStep h (HubEvent.broadcast m)).conns) ∧
    (∀ c2 ∈ (hubStep h (HubEvent.broadcast m)).conns,
      ∃ c1 ∈ h.conns, c1.inbox.length < sendCap ∧
        c2 = { c1 with inbox := c1.inbox ++ [m] }) ∧
    (∀ c2 ∈ (hubRun (hubStep h (HubEvent.broadcast m)) evs).conns,
      c2.id = cid → m ∉ c2.inbox) := by
  refine ⟨?_, ?_, ?_⟩
  · simp only [hubStep]
    refine List.mem_filterMap.mpr ⟨c, hc, ?_⟩
    rw [if_pos hroom]
  · intro c2 hc2
    simp only [hubStep] at hc2
    obtain ⟨a, ha, hfa⟩ := List.mem_filterMap.mp hc2
    by_cases hlen : a.inbox.length < sendCap
    · rw [if_pos hlen] at hfa
      exact ⟨a, ha, hlen, ((Option.some.injEq _ _).mp hfa).symm⟩
    · rw [if_neg hlen] at hfa
      exact absurd hfa (by simp)
  · apply hubRun_keeps_out m cid evs _ _ hnom
    intro c2 hc2 hcid
    simp only [hubStep] at hc2
    obtain ⟨a, ha, hfa⟩ := List.mem_filterMap.mp hc2
    by_cases hlen : a.inbox.length < sendCap
    · rw [if_pos hlen] at hfa
      have hca : c2 = { a with inbox := a.inbox ++ [m] } :=
        ((Option.some.injEq _ _).mp hfa).symm
      have haid : a.id = cid := by rw [hca] at hcid; exact hcid
      exact absurd (by exact List.mem_map.mpr ⟨a, ha, haid⟩) hfresh
    · rw [if_neg hlen] at hfa
      exact absurd hfa (by simp)

theorem C8_witness :
    ({ id := 1, inbox := ["x"] } ∈
        (hubStep { conns := [{ id := 1, inbox := [] }] }
          (HubEvent.broadcast "x")).conns) ∧
    (∀ c2 ∈ (hubStep { conns := [{ id := 1, inbox := [] }] }
          (HubEvent.broadcast "x")).conns,
      ∃ c1 ∈ ({ conns := [{ id := 1, inbox := [] }] } : Hub).conns,
        c1.inbox.length < sendCap ∧ c2 = { c1 with inbox := c1.inbox ++ ["x"] }) ∧
    (∀ c2 ∈ (hubRun (hubStep { conns := [{ id := 1, inbox := [] }] }
          (HubEvent.broadcast "x"))
          [HubEvent.register 2, HubEvent.broadcast "y"]).conns,
      c2.id = 2 → "x" ∉ c2.inbox) :=
  C8_broadcast_current_membership { conns := [{ id := 1, inbox := [] }] } "x"
    { id := 1, inbox := [] } 2 [HubEvent.register 2, HubEvent.broadcast "y"]
    (by decide) (by decide) (by decide) (by decide)

/-- voteSum reads only the votes table. -/
theorem voteSum_votes_eq (s s2 : Store) (x : Nat) (h : s2.votes = s.votes) :
    voteSum s2 x = voteSum s x := by
  rw [voteSum, voteSum, h]

/-- Appending one Vote row adds its value to its own post's sum and
leaves every other post's sum unchanged. -/
theorem voteSum_append (s s2 : Store) (vt : Vote) (x : Nat)
    (h : s2.votes = s.votes ++ [vt]) :
    voteSum s2 x = voteSum s x + (if vt.postId == x then vt.value else 0) := by
  simp only [voteSum, h, List.filter_append]
  rw [List.foldl_append]
  by_cases hp : vt.postId == x
  · simp [hp]
  · simp [hp]

/-- A post id no Vote row references has sum zero. -/
theorem voteSum_eq_zero (s : Store) (pid : Nat)
    (h : ∀ v ∈ s.votes, v.postId ≠ pid) : voteSum s pid = 0 := by
  rw [voteSum]
  have hnil : s.votes.filter (fun v => v.postId == pid) = [] := by
    rw [List.filter_eq_nil_iff]
    intro v hv
    simp [h v hv]
  rw [hnil]
  rfl

/-- CreatePost keeps the id discipline and the score invariant: the new
row starts at score 1 with no votes referencing its fresh id. -/
theorem createPost_preserves (s : Store) (content : String) (now : Nat)
    (hwf : wfStore s) (hinv : scoreInv s) :
    wfStore (createPost s content now).fst ∧
    scoreInv (createPost s content now).fst := by
  obtain ⟨hwp, hwv⟩ := hwf
  have hposts : (createPost s content now).fst.posts =
      s.posts ++ [{ id := s.nextPostId, content := content, score := 1,
                    hidden := false, createdAt := now }] := rfl
  have hvotes : (createPost s content now).fst.votes = s.votes := rfl
  have hnext : (createPost s content now).fst.nextPostId = s.nextPostId + 1 := rfl
  constructor
  · constructor
    · intro p hp
      rw [hposts] at hp
      rw [hnext]
      rcases List.mem_append.mp hp with h1 | h1
      · exact Nat.lt_succ_of_lt (hwp p h1)
      · have hpe := by simpa using h1
        rw [hpe]
        exact Nat.lt_succ_self _
    · intro v hv
      rw [hvotes] at hv
      rw [hnext]
      exact Nat.lt_succ_of_lt (hwv v hv)
  · intro p hp
    rw [hposts] at hp
    have hsum : ∀ x, voteSum (createPost s content now).fst x = voteSum s x :=
      fun x => voteSum_votes_eq _ s x hvotes
    rcases List.mem_append.mp hp with h1 | h1
    · rw [hsum]
      exact hinv p h1
    · have hpe := by simpa using h1
      rw [hpe, hsum]
      have hzero : voteSum s s.nextPostId = 0 :=
        voteSum_eq_zero s s.nextPostId
          (fun v hv => Nat.ne_of_lt (hwv v hv))
      simp [hzero]

/-- VoteOnPost keeps the id discipline and the score invariant: a failed
call leaves the store as it was, and a successful one adds the Vote
row and moves exactly the target's score by the vote value. -/
theorem voteOnPost_preserves (fi fu : Bool) (s : Store) (pid : Nat) (v : Int)
    (hwf : wfStore s) (hinv : scoreInv s) :
    wfStore (voteOnPost fi fu s pid v).store ∧
    scoreInv (voteOnPost fi fu s pid v).store := by
  obtain ⟨hwp, hwv⟩ := hwf
  cases hb : bindVoteInput v with
  | false =>
      simp only [voteOnPost, hb, Bool.not_false, if_pos]
      exact ⟨⟨hwp, hwv⟩, hinv⟩
  | true =>
      cases hfind : findVisiblePost s pid with
      | none =>
          simp only [voteOnPost, hb, transaction, voteTxBody, hfind]
          exact ⟨⟨hwp, hwv⟩, hinv⟩
      | some p =>
          have hfq : s.posts.find? (fun q => q.id == pid && !q.hidden) = some p :=
            hfind
          have hpmem : p ∈ s.posts := List.mem_of_find?_eq_some hfq
          have hppred := List.find?_some hfq
          have hpid : p.id = pid := by
            have := (Bool.and_eq_true _ _).mp hppred
            simpa using this.1
          cases fi with
          | true =>
              simp only [voteOnPost, hb, transaction, voteTxBody, hfind,
                if_pos, if_true]
              exact ⟨⟨hwp, hwv⟩, hinv⟩
          | false =>
              cases fu with
              | true =>
                  simp only [voteOnPost, hb, transaction, voteTxBody, hfind,
                    if_false, if_true, Bool.false_eq_true]
                  exact ⟨⟨hwp, hwv⟩, hinv⟩
              | false =>
                  have hst : (voteOnPost false false s pid v).store =
                      updateScore (insertVote s pid v) pid (p.score + v) := by
                    simp [voteOnPost, hb, transaction, voteTxBody, hfind]
                  rw [hst]
                  have hposts : (updateScore (insertVote s pid v) pid
                      (p.score + v)).posts =
                      s.posts.map (fun q => if q.id == pid then
                        { q with score := p.score + v } else q) := rfl
                  have hvotes : (updateScore (insertVote s pid v) pid
                      (p.score + v)).votes =
                      s.votes ++ [Vote.mk s.nextVoteId pid v] := rfl
                  have hnext : (updateScore (insertVote s pid v) pid
                      (p.score + v)).nextPostId = s.nextPostId := rfl
                  have hsum : ∀ x,
                      voteSum (updateScore (insertVote s pid v) pid
                        (p.score + v)) x =
                      voteSum s x + (if pid == x then v else 0) :=
                    fun x => voteSum_append s _ (Vote.mk s.nextVoteId pid v) x hvotes
                  constructor
                  · constructor
                    · intro q hq
                      rw [hposts] at hq
                      rw [hnext]
                      obtain ⟨a, ha, hfa⟩ := List.mem_map.mp hq
                      have hqid : q.id = a.id := by
                        by_cases h2 : a.id == pid
                        · rw [← hfa, if_pos h2]
                        · rw [← hfa, if_neg h2]
                      rw [hqid]
                      exact hwp a ha
                    · intro vt hvt
                      rw [hvotes] at hvt
                      rw [hnext]
                      rcases List.mem_append.mp hvt with h1 | h1
                      · exact hwv vt h1
                      · have hve := by simpa using h1
                        rw [hve]
                        show pid < s.nextPostId
                        rw [← hpid]
                        exact hwp p hpmem
                  · intro q hq
                    rw [hposts] at hq
                    obtain ⟨a, ha, hfa⟩ := List.mem_map.mp hq
                    by_cases h2 : a.id = pid
                    · have hfa2 : q = { a with score := p.score + v } := by
                        rw [← hfa, if_pos (by simp [h2])]
                      rw [hfa2]
                      show p.score + v = 1 + voteSum _ a.id
                      rw [hsum, h2]
                      simp only [beq_self_eq_true, if_pos]
                      have := hinv p hpmem
                      rw [hpid] at this
                      rw [this]
                      ring
                    · have hfa2 : q = a := by
                        rw [← hfa, if_neg (by simp [h2])]
                      rw [hfa2]
                      rw [hsum]
                      have hne : (pid == a.id) = false := by
                        simp
                        exact fun hmm => h2 hmm.symm
                      rw [hne]
                      simp only [if_false, Bool.false_eq_true]
                      simpa using hinv a ha

/-- DeletePost keeps the id discipline and the score invariant: it only
flips hidden flags, touching neither scores nor the votes table. -/
theorem deletePost_preserves (fh : Bool) (s : Store) (pid : Nat)
    (hwf : wfStore s) (hinv : scoreInv s) :
    wfStore (deletePost fh s pid).store ∧ scoreInv (deletePost fh s pid).store := by
  obtain ⟨hwp, hwv⟩ := hwf
  cases hfind : findPost s pid with
  | none =>
      simp only [deletePost, transaction, deleteTxBody, hfind]
      exact ⟨⟨hwp, hwv⟩, hinv⟩
  | some p =>
      cases fh with
      | true =>
          simp only [deletePost, transaction, deleteTxBody, hfind, if_true]
          exact ⟨⟨hwp, hwv⟩, hinv⟩
      | false =>
          have hst : (deletePost false s pid).store = setHidden s pid := by
            simp [deletePost, transaction, deleteTxBody, hfind]
          rw [hst]
          have hposts : (setHidden s pid).posts =
              s.posts.map (fun q => if q.id == pid then
                { q with hidden := true } else q) := rfl
          have hvotes : (setHidden s pid).votes = s.votes := rfl
          have hnext : (setHidden s pid).nextPostId = s.nextPostId := rfl
          have hsum : ∀ x, voteSum (setHidden s pid) x = voteSum s x :=
            fun x => voteSum_votes_eq _ s x hvotes
          constructor
          · constructor
            · intro q hq
              rw [hposts] at hq
              rw [hnext]
              obtain ⟨a, ha, hfa⟩ := List.mem_map.mp hq
              have hqid : q.id = a.id := by
                by_cases h2 : a.id == pid
                · rw [← hfa, if_pos h2]
                · rw [← hfa, if_neg h2]
              rw [hqid]
              exact hwp a ha
            · intro vt hvt
              rw [hvotes] at hvt
              rw [hnext]
              exact hwv vt hvt
          · intro q hq
            rw [hposts] at hq
            obtain ⟨a, ha, hfa⟩ := List.mem_map.mp hq
            rw [hsum]
            by_cases h2 : a.id == pid
            · have hfa2 : q = { a with hidden := true } := by
                rw [← hfa, if_pos h2]
              rw [hfa2]
              show a.score = 1 + voteSum s a.id
              exact hinv a ha
            · have hfa2 : q = a := by
                rw [← hfa, if_neg h2]
              rw [hfa2]
              exact hinv a ha

/-- Every operation preserves the id discipline and the score
invariant. -/
theorem applyOp_preserves (s : Store) (op : Op)
    (hwf : wfStore s) (hinv : scoreInv s) :
    wfStore (applyOp s op) ∧ scoreInv (applyOp s op) := by
  cases op with
  | create c now => exact createPost_preserves s c now hwf hinv
  | vote pid v fi fu => exact voteOnPost_preserves fi fu s pid v hwf hinv
  | hide pid fh => exact deletePost_preserves fh s pid hwf hinv

/-- The invariants hold after any sequence of operations. -/
theorem runOps_preserves (ops : List Op) :
    ∀ s : Store, wfStore s → scoreInv s →
    wfStore (runOps s ops) ∧ scoreInv (runOps s ops) := by
  induction ops with
  | nil =>
      intro s hwf hinv
      exact ⟨hwf, hinv⟩
  | cons op rest ih =>
      intro s hwf hinv
      have h1 := applyOp_preserves s op hwf hinv
      have h2 := ih (applyOp s op) h1.1 h1.2
      simpa [runOps, List.foldl_cons] using h2

/-- C1: after any sequence of CreatePost, VoteOnPost and DeletePost
calls against a fresh store — successful or failed, with any store
sub-step failures injected — every post's score equals its creation
score 1 plus the signed sum of all Vote rows recorded for it: no
vote's effect is lost and none is double-counted. -/
theorem C1_score_invariant (ops : List Op) :
    ∀ p ∈ (runOps emptyStore ops).posts,
      p.score = 1 + voteSum (runOps emptyStore ops) p.id := by
  have hwf0 : wfStore emptyStore := by
    constructor
    · intro p hp
      simp [emptyStore] at hp
    · intro v hv
      simp [emptyStore] at hv
  have hinv0 : scoreInv emptyStore := by
    intro p hp
    simp [emptyStore] at hp
  exact (runOps_preserves ops emptyStore hwf0 hinv0).2

theorem C1_witness :
    ({ id := 1, content := "hello", score := 2, hidden := false,
       createdAt := 3 } : Post).score =
      1 + voteSum (runOps emptyStore demoOps) 1 :=
  C1_score_invariant demoOps
    { id := 1, content := "hello", score := 2, hidden := false, createdAt := 3 }
    (by decide)

end Whispr
